import Mathlib

/- Verification development for the Parser repository (src/main.py).

   The code under src/ is a PySide6 text-editor shell (document model,
   undo/redo history, syntax highlighter, menus).  Its classes are embedded
   below directly from the source.  The tokenize+repair engine that the
   specification calls THE CORE has no code under src/ (the shell's
   `run_parser` only emits a text preview), so the engine is modelled from
   the specification; every such definition carries a doc comment starting
   with `Modelled from the spec:`. -/

/- ## Data model of the engine (spec, section 3) -/

/-- Modelled from the spec: the closed set of token kinds (section 3);
    the scanner and repair engine are absent from src/main.py. -/
inductive TokenKind where
  | CONST
  | CONSTEXPR
  | INT
  | VARIABLE
  | EQUAL
  | PLUS
  | MINUS
  | VALUE
  | SEMICOLON
  | INVALID
  deriving DecidableEq

/-- Modelled from the spec: a positioned token (section 3). -/
structure Token where
  kind : TokenKind
  value : String
  line : Nat
  column : Nat
  deriving DecidableEq

/-- Modelled from the spec: a scan-time or repair diagnostic (section 3). -/
structure ScanError where
  line : Nat
  column : Nat
  message : String
  deriving DecidableEq

/-- Modelled from the spec: the closed state set of the state machine
    (section 3). -/
inductive State where
  | START
  | DATA_TYPE
  | VARIABLE_S
  | EQUAL_S
  | VALUE_S
  | WHOLENUMBER_S
  | SEMICOLON_S
  | END
  deriving DecidableEq

/-- Modelled from the spec: the transition table of section 4.3, verbatim;
    anything not listed is rejected. -/
def transition : State → TokenKind → Option State
  | .START, .CONST => some .DATA_TYPE
  | .START, .CONSTEXPR => some .DATA_TYPE
  | .DATA_TYPE, .INT => some .VARIABLE_S
  | .VARIABLE_S, .VARIABLE => some .EQUAL_S
  | .EQUAL_S, .EQUAL => some .VALUE_S
  | .VALUE_S, .VALUE => some .SEMICOLON_S
  | .VALUE_S, .MINUS => some .WHOLENUMBER_S
  | .VALUE_S, .PLUS => some .WHOLENUMBER_S
  | .WHOLENUMBER_S, .VALUE => some .SEMICOLON_S
  | .SEMICOLON_S, .SEMICOLON => some .END
  | _, _ => none

/-- Modelled from the spec: taking a transition, with the END-to-START reset
    of section 4.3 ("On reaching END the engine resets to START and
    continues") applied on every taken transition. -/
def stepState (s : State) (k : TokenKind) : Option State :=
  match transition s k with
  | some s' => some (if s' = .END then .START else s')
  | none => none

/-- Target state of a transition known to exist. -/
def stepTo (s : State) (k : TokenKind) : State :=
  (stepState s k).getD .START

/-- All token kinds, in the declaration order of the spec's section 3. -/
def allKinds : List TokenKind :=
  [.CONST, .CONSTEXPR, .INT, .VARIABLE, .EQUAL, .PLUS, .MINUS, .VALUE,
   .SEMICOLON, .INVALID]

/-- Modelled from the spec: the outgoing set of a state (section 4.4). -/
def outgoing (s : State) : List TokenKind :=
  allKinds.filter fun k => (transition s k).isSome

/-- Modelled from the spec: terminal acceptance requires the state to be in
    the set containing END and START (section 3, invariants). -/
def accepting : State → Bool
  | .START => true
  | .END => true
  | _ => false

/-- Modelled from the spec: running the machine over a whole token list from
    a given state; acceptance at the end of the list. -/
def accepts : State → List Token → Bool
  | s, [] => accepting s
  | s, t :: rest =>
    match stepState s t.kind with
    | some s' => accepts s' rest
    | none => false

/-- Modelled from the spec: an accepting walk over the whole token list from
    START (glossary: "Accepting walk"). -/
def accepted (ts : List Token) : Bool :=
  accepts .START ts

/-- Modelled from the spec: the tagged edit variant (section 3). -/
inductive Edit where
  | insert (index : Nat) (tok : Token)
  | delete (index : Nat) (tok : Token)
  | replace (index : Nat) (oldTok newTok : Token)
  deriving DecidableEq

/- ## Repair engine (spec, section 4.4) -/

/-- Modelled from the spec: canonical default value strings for synthesized
    tokens (section 4.4.1); INVALID is never synthesized (no transitions). -/
def defaultValue : TokenKind → String
  | .CONST => "const"
  | .CONSTEXPR => "constexpr"
  | .INT => "int"
  | .VARIABLE => "variable_name"
  | .EQUAL => "="
  | .PLUS => "+"
  | .MINUS => "-"
  | .VALUE => "number"
  | .SEMICOLON => ";"
  | .INVALID => "?"

/-- A synthesized token of the given kind at the given position. -/
def synthTok (k : TokenKind) (line column : Nat) : Token :=
  ⟨k, defaultValue k, line, column⟩

/-- Modelled from the spec: position of a token appended at end-of-tokens
    (section 4.4.1): after the last token, or at the origin if none. -/
def appendPos : Option Token → Nat × Nat
  | none => (1, 1)
  | some p => (p.line, p.column + p.value.length)

/-- Result of a successful repair search: repaired token suffix and the edit
    log in application order. -/
abbrev RepairRes := List Token × List Edit

/-- Strict left-biased choice on options (search tries alternatives in
    order and keeps the first success). -/
def orElseO : Option α → Option α → Option α
  | some r, _ => some r
  | none, b => b

/-- First success of a kind-indexed alternative over a kind list. -/
def firstSome (f : TokenKind → Option α) : List TokenKind → Option α
  | [] => none
  | k :: ks =>
    match f k with
    | some r => some r
    | none => firstSome f ks

/-- Prepend a synthesized token and its edit record to a search result. -/
def mapCons (tk : Token) (e : Edit) : Option RepairRes → Option RepairRes
  | some (ts, es) => some (tk :: ts, e :: es)
  | none => none

/-- Record an edit that does not add a token to a search result. -/
def mapDel (e : Edit) : Option RepairRes → Option RepairRes
  | some (ts, es) => some (ts, e :: es)
  | none => none

/-- The exhausted-budget continuation: no further edits are available. -/
def noRepair : State → Nat → Option Token → List Token → Option RepairRes :=
  fun _ _ _ _ => none

/-- Modelled from the spec: one budget layer of the repair search
    (section 4.4, Step).  From state `s`, cursor index `i`, previous output
    token `prev` and remaining tokens: at end-of-tokens accept or append
    synthesized tokens (cost +1, via `next`); on a matching token advance at
    no cost; on a mismatch try delete, replace and insert children (cost +1,
    via `next`).  `next` is the search with one unit less edit budget. -/
def findRepairGo (next : State → Nat → Option Token → List Token → Option RepairRes) :
    State → Nat → Option Token → List Token → Option RepairRes
  | s, i, prev, [] =>
    if accepting s then some ([], [])
    else
      firstSome
        (fun k =>
          let pos := appendPos prev
          let tk := synthTok k pos.1 pos.2
          mapCons tk (.insert i tk) (next (stepTo s k) (i + 1) (some tk) []))
        (outgoing s)
  | s, i, prev, t :: rest =>
    match stepState s t.kind with
    | some s' =>
      match findRepairGo next s' (i + 1) (some t) rest with
      | some (ts', es) => some (t :: ts', es)
      | none => none
    | none =>
      orElseO
        (mapDel (.delete i t) (next s i prev rest))
        (orElseO
          (firstSome
            (fun k =>
              let tk := synthTok k t.line t.column
              mapCons tk (.replace i t tk)
                (next (stepTo s k) (i + 1) (some tk) rest))
            (outgoing s))
          (firstSome
            (fun k =>
              let tk := synthTok k t.line t.column
              mapCons tk (.insert i tk)
                (next (stepTo s k) (i + 1) (some tk) (t :: rest)))
            (outgoing s)))

/-- Modelled from the spec: the repair search with edit budget `b`; children
    whose edit count would exceed the budget are not explored
    (section 4.4). -/
def findRepair : Nat → State → Nat → Option Token → List Token → Option RepairRes
  | 0 => findRepairGo noRepair
  | b + 1 => findRepairGo (findRepair b)

/-- Modelled from the spec: the hard edit-budget cap, reference constant 15
    (sections 4.4 and 6). -/
def MAX_EDITS : Nat := 15

/-- Modelled from the spec: best-first order on unit costs is equivalent to
    trying edit budgets in ascending order and keeping the first accepting
    branch (sections 4.4 and 9, "two-level BFS over edit counts"). -/
def searchUpTo (ts : List Token) : Nat → Option RepairRes
  | 0 => none
  | b + 1 => orElseO (searchUpTo ts b) (findRepair b .START 0 none ts)

/-- Modelled from the spec: the minimum-edit accepting completion within the
    edit budget, or none (section 4.4). -/
def repairSearch (ts : List Token) : Option RepairRes :=
  searchUpTo ts (MAX_EDITS + 1)

/-- Modelled from the spec: the diagnostic builder (section 4.5). -/
def editToError : Edit → ScanError
  | .delete _ t => ⟨t.line, t.column, "Remove invalid token: '" ++ t.value ++ "'"⟩
  | .replace _ o n => ⟨o.line, o.column, "Replace '" ++ o.value ++ "' with '" ++ n.value ++ "'"⟩
  | .insert _ t => ⟨t.line, t.column, "Insert missing token: '" ++ t.value ++ "'"⟩

/-- Modelled from the spec: the budget-exhaustion diagnostic at the origin
    (section 4.5). -/
def budgetError : ScanError :=
  ⟨0, 0, "Edit budget exceeded (" ++ toString MAX_EDITS ++ ")"⟩

/-- Modelled from the spec: how the repair outcome is rendered — the edits
    of the winning branch become diagnostics; on budget exhaustion, one
    budget error and the original tokens unchanged (sections 4.4-4.5). -/
def repairOut (ts : List Token) : Option RepairRes → List Token × List ScanError
  | some (ts', es) => (ts', es.map editToError)
  | none => (ts, [budgetError])

/-- Modelled from the spec: `repair(tokens) -> (repaired_tokens, edit_errors)`
    (sections 4.4-4.6). -/
def repair (ts : List Token) : List Token × List ScanError :=
  repairOut ts (repairSearch ts)

/- ## Specification relations for the repair search -/

/-- Modelled from the spec: the step relation of the repair search as a
    proof-level relation.  `Walk s ts n` holds when an accepting completion
    of the remaining tokens `ts` from state `s` exists that uses exactly `n`
    edits, following section 4.4: accept at end, append at non-accepting
    end, free advance on a match, and delete/replace/insert on a mismatch. -/
inductive Walk : State → List Token → Nat → Prop where
  | acc {s} : accepting s = true → Walk s [] 0
  | app {s k s' n} : accepting s = false → stepState s k = some s' →
      Walk s' [] n → Walk s [] (n + 1)
  | adv {s t s' rest n} : stepState s t.kind = some s' →
      Walk s' rest n → Walk s (t :: rest) n
  | del {s t rest n} : stepState s t.kind = none →
      Walk s rest n → Walk s (t :: rest) (n + 1)
  | rep {s t k s' rest n} : stepState s t.kind = none →
      stepState s k = some s' → Walk s' rest n → Walk s (t :: rest) (n + 1)
  | ins {s t k s' rest n} : stepState s t.kind = none →
      stepState s k = some s' → Walk s' (t :: rest) n →
      Walk s (t :: rest) (n + 1)

/-- One arbitrary token edit anywhere in a token list: insert, delete or
    replace at any position (the edits quantified over by optimality
    property P5). -/
inductive EditStep : List Token → List Token → Prop where
  | ins (pre post : List Token) (t : Token) :
      EditStep (pre ++ post) (pre ++ t :: post)
  | del (pre post : List Token) (t : Token) :
      EditStep (pre ++ t :: post) (pre ++ post)
  | rep (pre post : List Token) (t u : Token) :
      EditStep (pre ++ t :: post) (pre ++ u :: post)

/-- A sequence of `n` arbitrary token edits. -/
inductive EditSeq : Nat → List Token → List Token → Prop where
  | refl {ts} : EditSeq 0 ts ts
  | step {n ts us vs} : EditStep ts us → EditSeq n us vs → EditSeq (n + 1) ts vs

/-- Number of INVALID tokens in a list (INVALID has no transitions, so each
    one forces at least one edit). -/
def invCount (ts : List Token) : Nat :=
  ts.countP fun t => t.kind == TokenKind.INVALID

/- ## Scanner (spec, section 4.2) -/

/-- Modelled from the spec: the character list of the keyword `const`. -/
def constChars : List Char := ['c', 'o', 'n', 's', 't']

/-- Modelled from the spec: the character list of the keyword `constexpr`. -/
def constexprChars : List Char := ['c', 'o', 'n', 's', 't', 'e', 'x', 'p', 'r']

/-- Modelled from the spec: the character list of the keyword `int`. -/
def intChars : List Char := ['i', 'n', 't']

/-- Modelled from the spec: the keyword boundary test of section 4.2 — the
    character immediately after the match must be non-alphanumeric, or the
    match must end the input. -/
def boundaryOk : List Char → Bool
  | [] => true
  | c :: _ => !c.isAlphanum

/-- Modelled from the spec: a keyword pattern matches at the head of `l`
    when its characters are present and the boundary test holds after
    them (section 4.2, rules 1-3). -/
def kwMatch (kw l : List Char) : Bool :=
  decide (l.take kw.length = kw) && boundaryOk (l.drop kw.length)

/-- Modelled from the spec: one scanner step at a non-whitespace position —
    attempt the patterns of section 4.2 in the declared order and commit the
    first match, returning the kind and the matched lexeme.  Rule 10
    (fallback) yields INVALID on the single character. -/
def scanStep : List Char → Option (TokenKind × List Char)
  | [] => none
  | c :: rest =>
    if kwMatch constChars (c :: rest) then some (.CONST, constChars)
    else if kwMatch constexprChars (c :: rest) then some (.CONSTEXPR, constexprChars)
    else if kwMatch intChars (c :: rest) then some (.INT, intChars)
    else if c = '=' then some (.EQUAL, [c])
    else if c = '+' then some (.PLUS, [c])
    else if c = '-' then some (.MINUS, [c])
    else if c = ';' then some (.SEMICOLON, [c])
    else if c.isAlpha then some (.VARIABLE, c :: rest.takeWhile Char.isAlphanum)
    else if c.isDigit then some (.VALUE, c :: rest.takeWhile Char.isDigit)
    else some (.INVALID, [c])

/-- Modelled from the spec: character offsets of the newlines of the source
    (section 4.1, position index; binary search there is an efficiency
    device, the answer is the same). -/
def newlinePositions (cs : List Char) : List Nat :=
  (List.range cs.length).filter fun p => decide (cs.get? p = some '\n')

/-- Modelled from the spec: `(line, column)` of a character offset
    (section 4.1): `line = k + 1` for `k` newlines at offsets at most `p`,
    `column` counted from the k-th newline, or `p + 1` on the first line. -/
def posOf (cs : List Char) (p : Nat) : Nat × Nat :=
  let ns := (newlinePositions cs).filter fun o => decide (o ≤ p)
  match ns.getLast? with
  | none => (1, p + 1)
  | some o => (ns.length + 1, p - o)

/-- Modelled from the spec: the scanner loop (section 4.2) — skip
    whitespace, commit the first matching rule via `scanStep`, emit a
    positioned token (or, for rule 10, only a scan error, as the spec
    recommends in section 9) and continue after the lexeme.  `fuel` is an
    upper bound on the number of steps; every step consumes at least one
    character, so `fuel = length of the text` suffices. -/
def scanAux (all : List Char) : Nat → List Char → Nat → List Token × List ScanError
  | 0, _, _ => ([], [])
  | _ + 1, [], _ => ([], [])
  | fuel + 1, c :: rest, p =>
    if c.isWhitespace then scanAux all fuel rest (p + 1)
    else
      match scanStep (c :: rest) with
      | some (k, lex) =>
        let pos := posOf all p
        let pr := scanAux all fuel ((c :: rest).drop lex.length) (p + lex.length)
        if k = .INVALID then
          (pr.1, ⟨pos.1, pos.2, "Unexpected character: " ++ String.mk lex⟩ :: pr.2)
        else
          (⟨k, String.mk lex, pos.1, pos.2⟩ :: pr.1, pr.2)
      | none => ([], [])

/-- Modelled from the spec: `tokenize(text) -> (tokens, scan_errors)`
    (sections 4.2 and 6). -/
def tokenize (text : String) : List Token × List ScanError :=
  scanAux text.data text.data.length text.data 0

/-- Modelled from the spec: the facade `analyze(text)` (section 4.6) — run
    the scanner, then repair, and return the repaired tokens with the scan
    errors followed by the edit errors. -/
def analyze (text : String) : List Token × List ScanError :=
  ((repair (tokenize text).1).1, (tokenize text).2 ++ (repair (tokenize text).1).2)

/- ## Shell code embedded from src/main.py -/

/-- Embeds `EditorViewModel.run_parser` (src/main.py lines 694-703): the
    string emitted through `parser_result_ready`.  On a falsy (empty) text
    it emits the empty string; otherwise it emits a header followed by the
    first 50 characters of the text and an ellipsis.  It calls no scanner
    and no repair engine. -/
def runParserResult (text : String) : String :=
  if text = "" then ""
  else "Анализ документа:\n" ++ String.mk (text.data.take 50) ++ "..."

/-- Embeds `SyntaxHighlighter.KEYWORDS` (src/main.py lines 1557-1563): the
    Rust keyword set used by the highlighter's identifier pass. -/
def KEYWORDS : List String :=
  ["as", "async", "await", "break", "const", "continue", "crate", "dyn",
   "else", "enum", "extern", "false", "fn", "for", "if", "impl", "in",
   "let", "loop", "match", "mod", "move", "mut", "pub", "ref", "return",
   "self", "Self", "static", "struct", "super", "trait", "true", "type",
   "union", "unsafe", "use", "where", "while"]

/-- Embeds `SyntaxHighlighter.TYPES` (src/main.py lines 1565-1568). -/
def TYPES : List String :=
  ["i8", "i16", "i32", "i64", "i128", "isize", "u8", "u16", "u32", "u64",
   "u128", "usize", "f32", "f64", "bool", "char", "str", "String"]

/-- The two highlight classes `_process_identifier` can assign. -/
inductive HLClass where
  | kw
  | ty
  deriving DecidableEq

/-- Embeds `SyntaxHighlighter._process_identifier` (src/main.py lines
    1670-1678): empty words get no format; words in KEYWORDS get the keyword
    format; otherwise words in TYPES get the type format. -/
def classifyIdentifier (word : String) : Option HLClass :=
  if word = "" then none
  else if KEYWORDS.contains word then some .kw
  else if TYPES.contains word then some .ty
  else none

/-- Embeds the state of `HistoryManager` (src/main.py lines 854-926).  The
    Python lists append and pop at the right end; they are modelled with the
    head of the Lean list as the top of the stack. -/
structure HistoryManager where
  undoStack : List (String × Nat)
  redoStack : List (String × Nat)
  currentState : Option (String × Nat)
  deriving DecidableEq

/-- Embeds `HistoryManager.push` (lines 870-882): a state equal to the
    current one is ignored; otherwise it is pushed on the undo stack, the
    redo stack is cleared and the current state updated. -/
def HistoryManager.push (h : HistoryManager) (s : String × Nat) : HistoryManager :=
  if h.currentState = some s then h
  else ⟨s :: h.undoStack, [], some s⟩

/-- Embeds `HistoryManager.undo` (lines 884-898): returns the popped state
    (or none) together with the new manager state. -/
def HistoryManager.undo (h : HistoryManager) :
    Option (String × Nat) × HistoryManager :=
  match h.undoStack with
  | [] => (none, h)
  | top :: rest =>
    let redoStack' :=
      match h.currentState with
      | some c => c :: h.redoStack
      | none => h.redoStack
    (some top, ⟨rest, redoStack', some top⟩)

/-- Embeds `HistoryManager.redo` (lines 900-914). -/
def HistoryManager.redo (h : HistoryManager) :
    Option (String × Nat) × HistoryManager :=
  match h.redoStack with
  | [] => (none, h)
  | top :: rest =>
    let undoStack' :=
      match h.currentState with
      | some c => c :: h.undoStack
      | none => h.undoStack
    (some top, ⟨undoStack', rest, some top⟩)

/-- Embeds `HistoryManager.clear` (lines 916-921). -/
def HistoryManager.clear (_ : HistoryManager) : HistoryManager :=
  ⟨[], [], none⟩

/-- Embeds the state of `DocumentModel` (src/main.py lines 193-328). -/
structure DocumentModel where
  text : String
  filePath : Option String
  modified : Bool
  deriving DecidableEq

/-- Python truthiness of an optional string: None and the empty string are
    falsy. -/
def pyTruthy : Option String → Bool
  | none => false
  | some s => !(decide (s = ""))

/-- Python's `a or b` on optional strings, as used by
    `save_path = path or self._file_path`. -/
def pyOrStr (a b : Option String) : Option String :=
  if pyTruthy a then a else b

/-- Embeds `DocumentModel.save` (src/main.py lines 277-305).  The file-system
    write is external; `writeOk` tells whether `Path.write_text` succeeds.
    With no usable path the method emits `error_occurred` and returns False
    without touching any state; on a failed write it also returns False
    unchanged (the exception is raised before any assignment); on success it
    clears `modified`, stores the path and returns True. -/
def DocumentModel.save (d : DocumentModel) (path : Option String)
    (writeOk : Bool) : Bool × DocumentModel :=
  let savePath := pyOrStr path d.filePath
  if pyTruthy savePath = false then (false, d)
  else if writeOk then (true, { d with modified := false, filePath := savePath })
  else (false, d)

/-- The continuation `findRepair` uses at a given budget: no edits at
    budget zero, otherwise the search with one unit less. -/
def nextOf : Nat → State → Nat → Option Token → List Token → Option RepairRes
  | 0 => noRepair
  | b + 1 => findRepair b

/-- A scanned CONST token, used as a concrete test input. -/
def cTok : Token := ⟨.CONST, "const", 1, 1⟩

/- ## Basic lemmas about the search combinators -/

theorem orElseO_eq_some {a b : Option α} {r : α} :
    orElseO a b = some r ↔ a = some r ∨ (a = none ∧ b = some r) := by
  cases a <;> simp [orElseO]

theorem orElseO_isSome_left {a b : Option α} (h : a.isSome) :
    (orElseO a b).isSome := by
  cases a <;> simp_all [orElseO]

theorem orElseO_isSome_right {a b : Option α} (h : b.isSome) :
    (orElseO a b).isSome := by
  cases a <;> simp_all [orElseO]

theorem firstSome_eq_some {f : TokenKind → Option α} {ks : List TokenKind}
    {r : α} (h : firstSome f ks = some r) : ∃ k ∈ ks, f k = some r := by
  induction ks with
  | nil => simp [firstSome] at h
  | cons k ks ih =>
    rw [firstSome] at h
    cases hk : f k with
    | some v =>
      rw [hk] at h
      simp at h
      exact ⟨k, by simp, by rw [hk, h]⟩
    | none =>
      rw [hk] at h
      simp at h
      obtain ⟨k', hk', hf⟩ := ih h
      exact ⟨k', by simp [hk'], hf⟩

theorem firstSome_isSome_of_mem {f : TokenKind → Option α}
    {ks : List TokenKind} {k : TokenKind} (hm : k ∈ ks) (h : (f k).isSome) :
    (firstSome f ks).isSome := by
  induction ks with
  | nil => simp at hm
  | cons k' ks ih =>
    rw [firstSome]
    cases hk : f k' with
    | some v => simp
    | none =>
      rcases List.mem_cons.mp hm with rfl | hm'
      · rw [hk] at h; simp at h
      · exact ih hm'

theorem mapCons_eq_some {tk : Token} {e : Edit} {o : Option RepairRes}
    {ts : List Token} {es : List Edit}
    (h : mapCons tk e o = some (ts, es)) :
    ∃ ts0 es0, o = some (ts0, es0) ∧ ts = tk :: ts0 ∧ es = e :: es0 := by
  match o with
  | none => simp [mapCons] at h
  | some (ts0, es0) =>
    rw [mapCons] at h
    injection h with h
    injection h with h1 h2
    exact ⟨ts0, es0, rfl, h1.symm, h2.symm⟩

theorem mapDel_eq_some {e : Edit} {o : Option RepairRes}
    {ts : List Token} {es : List Edit}
    (h : mapDel e o = some (ts, es)) :
    ∃ es0, o = some (ts, es0) ∧ es = e :: es0 := by
  match o with
  | none => simp [mapDel] at h
  | some (ts0, es0) =>
    rw [mapDel] at h
    injection h with h
    injection h with h1 h2
    exact ⟨es0, h1 ▸ rfl, h2.symm⟩

theorem mapCons_isSome {tk : Token} {e : Edit} {o : Option RepairRes}
    (h : o.isSome) : (mapCons tk e o).isSome := by
  match o with
  | some (ts0, es0) => simp [mapCons]
  | none => simp at h

theorem mapDel_isSome {e : Edit} {o : Option RepairRes}
    (h : o.isSome) : (mapDel e o).isSome := by
  match o with
  | some (ts0, es0) => simp [mapDel]
  | none => simp at h

theorem mem_allKinds (k : TokenKind) : k ∈ allKinds := by
  cases k <;> simp [allKinds]

theorem mem_outgoing_iff {s : State} {k : TokenKind} :
    k ∈ outgoing s ↔ (transition s k).isSome := by
  simp [outgoing, List.mem_filter, mem_allKinds]

theorem stepState_isSome_iff {s : State} {k : TokenKind} :
    (stepState s k).isSome ↔ (transition s k).isSome := by
  rw [stepState]
  cases transition s k <;> simp

theorem stepState_some_mem {s : State} {k : TokenKind} {s' : State}
    (h : stepState s k = some s') : k ∈ outgoing s := by
  rw [mem_outgoing_iff, ← stepState_isSome_iff, h]; rfl

theorem stepTo_eq {s : State} {k : TokenKind} {s' : State}
    (h : stepState s k = some s') : stepTo s k = s' := by
  rw [stepTo, h]; rfl

theorem stepState_of_mem_outgoing {s : State} {k : TokenKind}
    (h : k ∈ outgoing s) : stepState s k = some (stepTo s k) := by
  rw [mem_outgoing_iff, ← stepState_isSome_iff] at h
  cases hs : stepState s k with
  | none => rw [hs] at h; simp at h
  | some v => rw [stepTo, hs]; rfl

theorem findRepair_eq (b : Nat) :
    findRepair b = findRepairGo (nextOf b) := by
  cases b <;> rfl

/- ## Soundness of the repair search with respect to the step relation -/

theorem findRepairGo_sound
    (next : State → Nat → Option Token → List Token → Option RepairRes)
    (B : Nat)
    (hnext : ∀ s i prev ts ts' es, next s i prev ts = some (ts', es) →
      Walk s ts es.length ∧ es.length + 1 ≤ B) :
    ∀ ts s i prev ts' es, findRepairGo next s i prev ts = some (ts', es) →
      Walk s ts es.length ∧ es.length ≤ B := by
  intro ts
  induction ts with
  | nil =>
    intro s i prev ts' es h
    rw [findRepairGo] at h
    by_cases hacc : accepting s = true
    · rw [if_pos hacc] at h
      injection h with h
      injection h with h1 h2
      subst h2
      exact ⟨Walk.acc hacc, by simp⟩
    · rw [if_neg hacc] at h
      obtain ⟨k, hkmem, hfk⟩ := firstSome_eq_some h
      dsimp only at hfk
      obtain ⟨ts0, es0, hnx, hts, hes⟩ := mapCons_eq_some hfk
      obtain ⟨hw, hb⟩ := hnext _ _ _ _ _ _ hnx
      subst hes
      refine ⟨?_, by simpa using hb⟩
      exact Walk.app (by simpa using hacc) (stepState_of_mem_outgoing hkmem) hw
  | cons t rest ih =>
    intro s i prev ts' es h
    rw [findRepairGo] at h
    split at h
    case h_1 s' hstep =>
      cases hrec : findRepairGo next s' (i + 1) (some t) rest with
      | none => rw [hrec] at h; simp at h
      | some pr =>
        obtain ⟨ts0, es0⟩ := pr
        rw [hrec] at h
        injection h with h
        injection h with h1 h2
        subst h2
        obtain ⟨hw, hb⟩ := ih s' (i + 1) (some t) ts0 es0 hrec
        exact ⟨Walk.adv hstep hw, hb⟩
    case h_2 hstep =>
      rcases orElseO_eq_some.mp h with hdel | ⟨-, h2⟩
      · obtain ⟨es0, hnx, hes⟩ := mapDel_eq_some hdel
        obtain ⟨hw, hb⟩ := hnext _ _ _ _ _ _ hnx
        subst hes
        exact ⟨Walk.del hstep hw, by simpa using hb⟩
      · rcases orElseO_eq_some.mp h2 with hrep | ⟨-, hins⟩
        · obtain ⟨k, hkmem, hfk⟩ := firstSome_eq_some hrep
          dsimp only at hfk
          obtain ⟨ts0, es0, hnx, hts, hes⟩ := mapCons_eq_some hfk
          obtain ⟨hw, hb⟩ := hnext _ _ _ _ _ _ hnx
          subst hes
          exact ⟨Walk.rep hstep (stepState_of_mem_outgoing hkmem) hw,
            by simpa using hb⟩
        · obtain ⟨k, hkmem, hfk⟩ := firstSome_eq_some hins
          dsimp only at hfk
          obtain ⟨ts0, es0, hnx, hts, hes⟩ := mapCons_eq_some hfk
          obtain ⟨hw, hb⟩ := hnext _ _ _ _ _ _ hnx
          subst hes
          exact ⟨Walk.ins hstep (stepState_of_mem_outgoing hkmem) hw,
            by simpa using hb⟩

theorem findRepair_sound :
    ∀ b ts s i prev ts' es, findRepair b s i prev ts = some (ts', es) →
      Walk s ts es.length ∧ es.length ≤ b := by
  intro b
  induction b with
  | zero =>
    intro ts s i prev ts' es h
    rw [findRepair_eq] at h
    refine findRepairGo_sound (nextOf 0) 0 ?_ ts s i prev ts' es h
    intro s i prev ts ts' es h
    simp [nextOf, noRepair] at h
  | succ b ihb =>
    intro ts s i prev ts' es h
    rw [findRepair_eq] at h
    refine findRepairGo_sound (nextOf (b + 1)) (b + 1) ?_ ts s i prev ts' es h
    intro s i prev ts ts' es h
    obtain ⟨hw, hb⟩ := ihb ts s i prev ts' es h
    exact ⟨hw, by omega⟩

theorem findRepairGo_cons_adv {s : State} {t : Token} {s' : State}
    {rest : List Token}
    (next : State → Nat → Option Token → List Token → Option RepairRes)
    (i : Nat) (prev : Option Token) (hstep : stepState s t.kind = some s') :
    findRepairGo next s i prev (t :: rest) =
      match findRepairGo next s' (i + 1) (some t) rest with
      | some (ts', es) => some (t :: ts', es)
      | none => none := by
  rw [findRepairGo, hstep]

theorem findRepairGo_cons_mis {s : State} {t : Token} {rest : List Token}
    (next : State → Nat → Option Token → List Token → Option RepairRes)
    (i : Nat) (prev : Option Token) (hstep : stepState s t.kind = none) :
    findRepairGo next s i prev (t :: rest) =
      orElseO
        (mapDel (.delete i t) (next s i prev rest))
        (orElseO
          (firstSome
            (fun k =>
              let tk := synthTok k t.line t.column
              mapCons tk (.replace i t tk)
                (next (stepTo s k) (i + 1) (some tk) rest))
            (outgoing s))
          (firstSome
            (fun k =>
              let tk := synthTok k t.line t.column
              mapCons tk (.insert i tk)
                (next (stepTo s k) (i + 1) (some tk) (t :: rest)))
            (outgoing s))) := by
  rw [findRepairGo, hstep]


/- ## Completeness of the repair search with respect to the step relation -/

theorem findRepair_complete {s : State} {ts : List Token} {n : Nat}
    (hw : Walk s ts n) :
    ∀ b, n ≤ b → ∀ i prev, (findRepair b s i prev ts).isSome := by
  induction hw with
  | @acc s hacc =>
    intro b hb i prev
    rw [findRepair_eq, findRepairGo, if_pos hacc]
    simp
  | @app s k s' n hacc hstep hw ih =>
    intro b hb i prev
    obtain ⟨b0, rfl⟩ : ∃ b0, b = b0 + 1 := ⟨b - 1, by omega⟩
    rw [findRepair_eq, findRepairGo, if_neg (by simp [hacc])]
    refine firstSome_isSome_of_mem (stepState_some_mem hstep) ?_
    dsimp only
    refine mapCons_isSome ?_
    rw [show nextOf (b0 + 1) = findRepair b0 from rfl, stepTo_eq hstep]
    exact ih b0 (by omega) _ _
  | @adv s t s' rest n hstep hw ih =>
    intro b hb i prev
    rw [findRepair_eq, findRepairGo_cons_adv (nextOf b) i prev hstep]
    have hrec := ih b hb (i + 1) (some t)
    rw [findRepair_eq] at hrec
    cases hr : findRepairGo (nextOf b) s' (i + 1) (some t) rest with
    | none => rw [hr] at hrec; simp at hrec
    | some pr => obtain ⟨ts0, es0⟩ := pr; simp
  | @del s t rest n hstep hw ih =>
    intro b hb i prev
    obtain ⟨b0, rfl⟩ : ∃ b0, b = b0 + 1 := ⟨b - 1, by omega⟩
    rw [findRepair_eq, findRepairGo_cons_mis (nextOf (b0 + 1)) i prev hstep]
    refine orElseO_isSome_left (mapDel_isSome ?_)
    rw [show nextOf (b0 + 1) = findRepair b0 from rfl]
    exact ih b0 (by omega) _ _
  | @rep s t k s' rest n hstep hk hw ih =>
    intro b hb i prev
    obtain ⟨b0, rfl⟩ : ∃ b0, b = b0 + 1 := ⟨b - 1, by omega⟩
    rw [findRepair_eq, findRepairGo_cons_mis (nextOf (b0 + 1)) i prev hstep]
    refine orElseO_isSome_right (orElseO_isSome_left ?_)
    refine firstSome_isSome_of_mem (stepState_some_mem hk) ?_
    dsimp only
    refine mapCons_isSome ?_
    rw [show nextOf (b0 + 1) = findRepair b0 from rfl, stepTo_eq hk]
    exact ih b0 (by omega) _ _
  | @ins s t k s' rest n hstep hk hw ih =>
    intro b hb i prev
    obtain ⟨b0, rfl⟩ : ∃ b0, b = b0 + 1 := ⟨b - 1, by omega⟩
    rw [findRepair_eq, findRepairGo_cons_mis (nextOf (b0 + 1)) i prev hstep]
    refine orElseO_isSome_right (orElseO_isSome_right ?_)
    refine firstSome_isSome_of_mem (stepState_some_mem hk) ?_
    dsimp only
    refine mapCons_isSome ?_
    rw [show nextOf (b0 + 1) = findRepair b0 from rfl, stepTo_eq hk]
    exact ih b0 (by omega) _ _

/- ## Budget iteration lemmas -/

theorem searchUpTo_none_inv {ts : List Token} :
    ∀ n, searchUpTo ts n = none →
      ∀ b, b < n → findRepair b .START 0 none ts = none := by
  intro n
  induction n with
  | zero => intro _ b hb; omega
  | succ n ih =>
    intro h b hb
    rw [searchUpTo] at h
    cases ha : searchUpTo ts n with
    | some r => rw [ha] at h; simp [orElseO] at h
    | none =>
      rw [ha] at h
      rcases Nat.lt_succ_iff_lt_or_eq.mp hb with hlt | rfl
      · exact ih ha b hlt
      · exact h

theorem searchUpTo_some_inv {ts : List Token} :
    ∀ n r, searchUpTo ts n = some r →
      ∃ b, b < n ∧ findRepair b .START 0 none ts = some r ∧
        ∀ b', b' < b → findRepair b' .START 0 none ts = none := by
  intro n
  induction n with
  | zero => intro r h; rw [searchUpTo] at h; exact absurd h (by simp)
  | succ n ih =>
    intro r h
    rw [searchUpTo] at h
    rcases orElseO_eq_some.mp h with h1 | ⟨hnone, h2⟩
    · obtain ⟨b, hb, hf, hmin⟩ := ih r h1
      exact ⟨b, by omega, hf, hmin⟩
    · exact ⟨n, by omega, h2, fun b' hb' => searchUpTo_none_inv n hnone b' hb'⟩

/- ## Behaviour on already-accepted input -/

theorem findRepairGo_of_accepts
    (next : State → Nat → Option Token → List Token → Option RepairRes) :
    ∀ ts s, accepts s ts = true → ∀ i prev,
      findRepairGo next s i prev ts = some (ts, []) := by
  intro ts
  induction ts with
  | nil =>
    intro s h i prev
    rw [accepts] at h
    rw [findRepairGo, if_pos h]
  | cons t rest ih =>
    intro s h i prev
    rw [accepts] at h
    cases hstep : stepState s t.kind with
    | none => rw [hstep] at h; simp at h
    | some s' =>
      rw [hstep] at h
      simp only at h
      rw [findRepairGo_cons_adv next i prev hstep, ih s' h (i + 1) (some t)]

theorem repair_of_accepted {ts : List Token} (h : accepted ts = true) :
    repair ts = (ts, []) := by
  have hall : ∀ b i prev, findRepair b .START i prev ts = some (ts, []) := by
    intro b i prev
    rw [findRepair_eq]
    exact findRepairGo_of_accepts _ ts .START h i prev
  have hs : ∀ n, searchUpTo ts (n + 1) = some (ts, []) := by
    intro n
    induction n with
    | zero => rw [searchUpTo, searchUpTo, hall 0 0 none]; rfl
    | succ n ihn => rw [searchUpTo, ihn]; rfl
  have hrs : repairSearch ts = some (ts, []) := by
    rw [repairSearch, show MAX_EDITS + 1 = 15 + 1 from rfl]
    exact hs 15
  rw [repair, hrs, repairOut]
  simp

/- ## Every INVALID token costs at least one edit -/

theorem stepState_invalid (s : State) : stepState s .INVALID = none := by
  cases s <;> rfl

theorem walk_invCount {s : State} {ts : List Token} {n : Nat}
    (hw : Walk s ts n) : invCount ts ≤ n := by
  induction hw with
  | @acc s hacc => simp [invCount]
  | @app s k s' n hacc hstep hw ih => simp [invCount] at *
  | @adv s t s' rest n hstep hw ih =>
    have hk : t.kind ≠ .INVALID := by
      intro hk
      rw [hk, stepState_invalid] at hstep
      simp at hstep
    rw [invCount, List.countP_cons]
    simp only [beq_iff_eq, hk, if_false]
    exact ih
  | @del s t rest n hstep hw ih =>
    rw [invCount, List.countP_cons]
    have := ih
    rw [invCount] at this
    by_cases hk : t.kind = TokenKind.INVALID <;> simp [hk] <;> omega
  | @rep s t k s' rest n hstep hk hw ih =>
    rw [invCount, List.countP_cons]
    have := ih
    rw [invCount] at this
    by_cases hkt : t.kind = TokenKind.INVALID <;> simp [hkt] <;> omega
  | @ins s t k s' rest n hstep hk hw ih =>
    have := ih
    rw [invCount] at this ⊢
    omega

/- ## Claim C2 -/

/-- Claim C2, counterexample: the repair returned for the single-token list
    `[const]` carries five edits (five appended insertions), yet one
    arbitrary token edit — deleting the `const` token — already yields the
    empty list, which the state machine accepts.  The search only edits at
    mismatch points, so it never considers deleting a matching token, and
    the repair is not minimum-edit over arbitrary insert/delete/replace
    sequences. -/
theorem repair_not_globally_minimal :
    repairSearch [cTok] =
      some ([cTok, ⟨.INT, "int", 1, 6⟩, ⟨.VARIABLE, "variable_name", 1, 9⟩,
             ⟨.EQUAL, "=", 1, 22⟩, ⟨.VALUE, "number", 1, 23⟩,
             ⟨.SEMICOLON, ";", 1, 29⟩],
            [.insert 1 ⟨.INT, "int", 1, 6⟩,
             .insert 2 ⟨.VARIABLE, "variable_name", 1, 9⟩,
             .insert 3 ⟨.EQUAL, "=", 1, 22⟩,
             .insert 4 ⟨.VALUE, "number", 1, 23⟩,
             .insert 5 ⟨.SEMICOLON, ";", 1, 29⟩]) ∧
    EditSeq 1 [cTok] [] ∧ accepted [] = true ∧ 1 < 5 := by
  refine ⟨by decide, ?_, rfl, by omega⟩
  exact EditSeq.step (EditStep.del [] [] cTok) EditSeq.refl

/-- Claim C2 (amended): when `repair` returns a repaired list with edit list
    `edits` (not budget-exceeded), no completion reachable by the search's
    own step relation (advance on a match; delete/replace/insert only at a
    mismatch; append only at a non-accepting end of tokens) uses fewer than
    `|edits|` edits: the returned repair is minimum-edit among the walks the
    engine searches. -/
theorem repairSearch_minimal (ts ts' : List Token) (es : List Edit)
    (h : repairSearch ts = some (ts', es)) :
    Walk .START ts es.length ∧ ∀ m, Walk .START ts m → es.length ≤ m := by
  obtain ⟨b, hb16, hf, hmin⟩ := searchUpTo_some_inv (MAX_EDITS + 1) (ts', es) h
  obtain ⟨hw, hlen⟩ := findRepair_sound b ts .START 0 none ts' es hf
  refine ⟨hw, ?_⟩
  intro m hwm
  by_contra hlt
  push_neg at hlt
  have hms : (findRepair m .START 0 none ts).isSome :=
    findRepair_complete hwm m (le_refl m) 0 none
  rw [hmin m (by omega)] at hms
  simp at hms

/-- Witness for C2 (amended) at the concrete input `[const]`: the returned
    edit list has length 5, and 5 is minimal over the search's own walks. -/
theorem repairSearch_minimal_witness :
    Walk .START [cTok] 5 ∧ ∀ m, Walk .START [cTok] m → 5 ≤ m := by
  have h := repairSearch_minimal [cTok]
    [cTok, ⟨.INT, "int", 1, 6⟩, ⟨.VARIABLE, "variable_name", 1, 9⟩,
     ⟨.EQUAL, "=", 1, 22⟩, ⟨.VALUE, "number", 1, 23⟩, ⟨.SEMICOLON, ";", 1, 29⟩]
    [.insert 1 ⟨.INT, "int", 1, 6⟩, .insert 2 ⟨.VARIABLE, "variable_name", 1, 9⟩,
     .insert 3 ⟨.EQUAL, "=", 1, 22⟩, .insert 4 ⟨.VALUE, "number", 1, 23⟩,
     .insert 5 ⟨.SEMICOLON, ";", 1, 29⟩] (by decide)
  exact h

/- ## Claim C3 -/

/-- Claim C3: on a token list already accepted by the state machine,
    `repair` returns exactly the same list with the empty edit-error list
    (zero edits). -/
theorem repair_idempotent_on_accepted (ts : List Token)
    (h : accepted ts = true) : repair ts = (ts, []) :=
  repair_of_accepted h

/-- Witness for C3 at the token list scanned from `const int x = 5;`. -/
theorem repair_idempotent_on_accepted_witness :
    accepted [(⟨.CONST, "const", 1, 1⟩ : Token), ⟨.INT, "int", 1, 7⟩,
      ⟨.VARIABLE, "x", 1, 11⟩, ⟨.EQUAL, "=", 1, 13⟩, ⟨.VALUE, "5", 1, 15⟩,
      ⟨.SEMICOLON, ";", 1, 16⟩] = true ∧
    repair [(⟨.CONST, "const", 1, 1⟩ : Token), ⟨.INT, "int", 1, 7⟩,
      ⟨.VARIABLE, "x", 1, 11⟩, ⟨.EQUAL, "=", 1, 13⟩, ⟨.VALUE, "5", 1, 15⟩,
      ⟨.SEMICOLON, ";", 1, 16⟩] =
      ([(⟨.CONST, "const", 1, 1⟩ : Token), ⟨.INT, "int", 1, 7⟩,
        ⟨.VARIABLE, "x", 1, 11⟩, ⟨.EQUAL, "=", 1, 13⟩, ⟨.VALUE, "5", 1, 15⟩,
        ⟨.SEMICOLON, ";", 1, 16⟩], []) :=
  ⟨by decide, repair_idempotent_on_accepted _ (by decide)⟩

/- ## Claim C4 -/

/-- Claim C4: when no accepting completion exists within MAX_EDITS edits
    (no walk of the search's step relation stays within the budget),
    `repair` emits exactly one error, with message
    `Edit budget exceeded (15)` at position (0, 0), and returns the
    original token list unchanged. -/
theorem repair_budget_exceeded (ts : List Token)
    (h : ∀ n, Walk .START ts n → MAX_EDITS < n) :
    repair ts = (ts, [⟨0, 0, "Edit budget exceeded (15)"⟩]) := by
  cases hrs : repairSearch ts with
  | some r =>
    obtain ⟨ts', es⟩ := r
    obtain ⟨b, hb16, hf, -⟩ := searchUpTo_some_inv (MAX_EDITS + 1) (ts', es) hrs
    obtain ⟨hw, hlen⟩ := findRepair_sound b ts .START 0 none ts' es hf
    have hgt := h es.length hw
    rw [MAX_EDITS] at hgt hb16
    omega
  | none =>
    rw [repair, hrs, repairOut]
    have : budgetError = ⟨0, 0, "Edit budget exceeded (15)"⟩ := by decide
    rw [this]

/-- Witness for C4: sixteen INVALID tokens admit no transition, each one
    needs its own edit, so no walk stays within the budget of 15. -/
theorem repair_budget_exceeded_witness :
    repair (List.replicate 16 (⟨.INVALID, "?", 1, 1⟩ : Token)) =
      (List.replicate 16 (⟨.INVALID, "?", 1, 1⟩ : Token),
        [⟨0, 0, "Edit budget exceeded (15)"⟩]) := by
  refine repair_budget_exceeded _ ?_
  intro n hw
  have hc := walk_invCount hw
  have h16 : invCount (List.replicate 16 (⟨.INVALID, "?", 1, 1⟩ : Token)) = 16 := by
    decide
  rw [MAX_EDITS]
  omega

/- ## Claim C6 -/

theorem scanAux_whitespace (all : List Char) :
    ∀ fuel l p, l.all Char.isWhitespace = true → scanAux all fuel l p = ([], []) := by
  intro fuel
  induction fuel with
  | zero => intro l p _; rfl
  | succ fuel ih =>
    intro l p h
    cases l with
    | nil => rfl
    | cons c rest =>
      rw [List.all_cons, Bool.and_eq_true] at h
      rw [scanAux, if_pos h.1]
      exact ih rest (p + 1) h.2

/-- Claim C6: the facade analysis returns the empty token list and the empty
    error list on empty input, and likewise `([], [])` on whitespace-only
    input. -/
theorem analyze_empty_and_whitespace :
    analyze "" = ([], []) ∧
    ∀ text : String, text.data.all Char.isWhitespace = true →
      analyze text = ([], []) := by
  have hws : ∀ text : String, text.data.all Char.isWhitespace = true →
      analyze text = ([], []) := by
    intro text h
    have htok : tokenize text = ([], []) := by
      rw [tokenize]
      exact scanAux_whitespace _ _ _ _ h
    rw [analyze, htok]
    have hrep : repair [] = ([], []) := repair_of_accepted rfl
    rw [hrep]
    rfl
  exact ⟨hws "" rfl, hws⟩

/-- Witness for C6 at the whitespace-only input of spaces, tab and
    newline. -/
theorem analyze_empty_and_whitespace_witness :
    analyze "  \t\n " = ([], []) :=
  analyze_empty_and_whitespace.2 "  \t\n " (by decide)

/- ## Claim C8 -/

theorem take_cons_head {c : Char} {rest : List Char} {k : Char}
    {ks : List Char} (h : (c :: rest).take (k :: ks).length = k :: ks) :
    c = k ∧ rest.take ks.length = ks := by
  rw [List.length_cons, List.take_succ_cons] at h
  injection h with h1 h2
  exact ⟨h1, h2⟩

theorem takeWhile_extends (p : Char → Bool) :
    ∀ (kw l : List Char), kw.all p = true → l.take kw.length = kw →
      l.takeWhile p = kw ++ (l.drop kw.length).takeWhile p := by
  intro kw
  induction kw with
  | nil => intro l _ _; simp
  | cons k ks ih =>
    intro l hall htake
    cases l with
    | nil => simp at htake
    | cons a l' =>
      obtain ⟨h1, h2⟩ := take_cons_head htake
      subst h1
      rw [List.all_cons, Bool.and_eq_true] at hall
      rw [List.takeWhile_cons_of_pos hall.1, ih l' hall.2 h2]
      rw [List.length_cons, List.drop_succ_cons, List.cons_append]

/-- Claim C8: a keyword lexeme (const, constexpr, int) is committed by the
    scanner only when the character immediately after the match is
    non-alphanumeric or the input ends there; and when a keyword's
    characters are present but no keyword rule matches, the scanner commits
    the identifier rule instead, producing the whole alphanumeric word that
    extends the keyword. -/
theorem scanner_keyword_boundary (l : List Char) :
    (∀ k lex, scanStep l = some (k, lex) →
        (k = .CONST ∨ k = .CONSTEXPR ∨ k = .INT) →
        l.take lex.length = lex ∧ boundaryOk (l.drop lex.length) = true) ∧
    (∀ kw, (kw = constChars ∨ kw = constexprChars ∨ kw = intChars) →
        l.take kw.length = kw →
        kwMatch constChars l = false → kwMatch constexprChars l = false →
        kwMatch intChars l = false →
        scanStep l =
          some (.VARIABLE, kw ++ (l.drop kw.length).takeWhile Char.isAlphanum)) := by
  constructor
  · intro k lex h hk
    cases l with
    | nil => rw [scanStep] at h; exact absurd h (by simp)
    | cons c rest =>
      rw [scanStep] at h
      split_ifs at h with h1 h2 h3 h4 h5 h6 h7 h8 h9
      · injection h with h
        injection h with hke hlex
        subst hlex
        simp only [kwMatch, Bool.and_eq_true, decide_eq_true_eq] at h1
        exact ⟨h1.1, h1.2⟩
      · injection h with h
        injection h with hke hlex
        subst hlex
        simp only [kwMatch, Bool.and_eq_true, decide_eq_true_eq] at h2
        exact ⟨h2.1, h2.2⟩
      · injection h with h
        injection h with hke hlex
        subst hlex
        simp only [kwMatch, Bool.and_eq_true, decide_eq_true_eq] at h3
        exact ⟨h3.1, h3.2⟩
      all_goals
        (injection h with h; injection h with hke hlex; subst hke;
         exact absurd hk (by decide))
  · intro kw hkw hpre h1 h2 h3
    cases l with
    | nil =>
      exfalso
      rcases hkw with rfl | rfl | rfl <;>
        simp [constChars, constexprChars, intChars] at hpre
    | cons c rest =>
      rcases hkw with rfl | rfl | rfl
      · obtain ⟨hc, -⟩ := take_cons_head hpre
        subst hc
        have hext := takeWhile_extends Char.isAlphanum constChars
          ('c' :: rest) (by decide) hpre
        rw [List.takeWhile_cons_of_pos (by decide)] at hext
        rw [scanStep, if_neg (by simp [h1]), if_neg (by simp [h2]),
          if_neg (by simp [h3]), if_neg (by decide), if_neg (by decide),
          if_neg (by decide), if_neg (by decide), if_pos (by decide), ← hext]
      · obtain ⟨hc, -⟩ := take_cons_head hpre
        subst hc
        have hext := takeWhile_extends Char.isAlphanum constexprChars
          ('c' :: rest) (by decide) hpre
        rw [List.takeWhile_cons_of_pos (by decide)] at hext
        rw [scanStep, if_neg (by simp [h1]), if_neg (by simp [h2]),
          if_neg (by simp [h3]), if_neg (by decide), if_neg (by decide),
          if_neg (by decide), if_neg (by decide), if_pos (by decide), ← hext]
      · obtain ⟨hc, -⟩ := take_cons_head hpre
        subst hc
        have hext := takeWhile_extends Char.isAlphanum intChars
          ('i' :: rest) (by decide) hpre
        rw [List.takeWhile_cons_of_pos (by decide)] at hext
        rw [scanStep, if_neg (by simp [h1]), if_neg (by simp [h2]),
          if_neg (by simp [h3]), if_neg (by decide), if_neg (by decide),
          if_neg (by decide), if_neg (by decide), if_pos (by decide), ← hext]

/-- Witness for C8 at the input `intx`: the keyword characters `int` are
    present but followed by the alphanumeric `x`, no keyword rule matches,
    and the identifier rule takes the whole word `intx`. -/
theorem scanner_keyword_boundary_witness :
    scanStep ("intx".data) =
      some (.VARIABLE,
        intChars ++ (("intx".data).drop intChars.length).takeWhile Char.isAlphanum) :=
  (scanner_keyword_boundary ("intx".data)).2 intChars (Or.inr (Or.inr rfl))
    (by decide) (by decide) (by decide) (by decide)

/- ## Claim C1 -/

/-- Claim C1 (code bug exhibited): the facade analysis operation of the
    code, `EditorViewModel.run_parser`, does not run a scanner or a repair
    engine and returns no token or error lists — on the well-formed input
    `const int x = 5;` it only emits a header followed by the first 50
    characters of the document, and on empty input the empty string.  No
    `repair` operation exists anywhere in src/main.py. -/
theorem runParser_is_preview_stub :
    runParserResult "const int x = 5;" = "Анализ документа:\nconst int x = 5;..." ∧
    runParserResult "" = "" := by
  constructor
  · decide
  · decide

/- ## Claim C7 -/

/-- Claim C7, counterexample: the keyword set the highlighter's lexical pass
    recognizes is not `{const, constexpr, int}` — it lacks `constexpr` and
    `int` and contains the Rust keywords, e.g. `fn` and `as`. -/
theorem highlighter_keywords_not_const_int :
    KEYWORDS.contains "constexpr" = false ∧
    KEYWORDS.contains "int" = false ∧
    KEYWORDS.contains "fn" = true ∧
    classifyIdentifier "constexpr" = none ∧
    classifyIdentifier "as" = some .kw := by
  refine ⟨by decide, by decide, by decide, by decide, by decide⟩

/-- Claim C7 (amended): the keyword set used by the only lexical pass in the
    code (the syntax highlighter) is the fixed 39-word Rust keyword list; of
    the claimed set `{const, constexpr, int}` it contains only `const`.  It
    is read-only configuration (a class constant the code never mutates;
    here a plain definition). -/
theorem highlighter_keywords_rust :
    (["const", "constexpr", "int"].filter fun w => KEYWORDS.contains w) =
      ["const"] ∧
    KEYWORDS.length = 39 ∧
    classifyIdentifier "const" = some HLClass.kw := by
  refine ⟨by decide, by decide, by decide⟩

/- ## Claim C9 -/

/-- Claim C9, counterexample: after `push a; push b; undo; push b` the final
    push is a no-op (the pushed state equals the current state, and
    `HistoryManager.push` returns early without clearing the redo stack), so
    immediately after a push the redo stack is non-empty and `redo` returns
    the state `b`, not None. -/
theorem history_push_redo_not_cleared :
    ((((⟨[], [], none⟩ : HistoryManager).push ("a", 0)).push
        ("b", 0)).undo.2.push ("b", 0)).redoStack = [("b", 0)] ∧
    ((((⟨[], [], none⟩ : HistoryManager).push ("a", 0)).push
        ("b", 0)).undo.2.push ("b", 0)).redo.1 = some ("b", 0) := by
  refine ⟨by decide, by decide⟩

/-- Claim C9 (amended): after an effective push — one whose state differs
    from the current state, so the early-return of `HistoryManager.push`
    does not fire — the redo stack is empty and a following `redo` returns
    None; this holds for every reachable manager state, hence for every
    sequence of push/undo/redo/clear operations ending in such a push. -/
theorem history_effective_push_clears_redo (h : HistoryManager)
    (s : String × Nat) (hne : h.currentState ≠ some s) :
    (h.push s).redoStack = [] ∧ (h.push s).redo.1 = none := by
  rw [HistoryManager.push, if_neg hne]
  exact ⟨rfl, rfl⟩

/-- Witness for the amended C9 at the empty manager and a fresh state. -/
theorem history_effective_push_clears_redo_witness :
    ((⟨[], [], none⟩ : HistoryManager).push ("a", 0)).redoStack = [] ∧
    ((⟨[], [], none⟩ : HistoryManager).push ("a", 0)).redo.1 = none :=
  history_effective_push_clears_redo ⟨[], [], none⟩ ("a", 0) (by decide)

/- ## Claim C10 -/

/-- Claim C10: on a document whose `file_path` is None, `save` called with
    no path argument reports the error and returns False, leaving the whole
    document state — text, file_path and modified — unchanged, whatever the
    file system would have done. -/
theorem save_without_path_fails_unchanged (d : DocumentModel) (w : Bool)
    (h : d.filePath = none) : d.save none w = (false, d) := by
  rw [DocumentModel.save]
  have hsp : pyOrStr none d.filePath = none := by
    rw [pyOrStr, h]
    rfl
  rw [hsp]
  rfl

/-- Witness for C10 at a concrete modified, path-less document. -/
theorem save_without_path_fails_unchanged_witness :
    (⟨"const int x = 5;", none, true⟩ : DocumentModel).save none true =
      (false, ⟨"const int x = 5;", none, true⟩) :=
  save_without_path_fails_unchanged ⟨"const int x = 5;", none, true⟩ true rfl
